import Mathlib

/-!
Shallow embedding of the tinykeys keybinding library (src/tinykeys.ts):
the keybinding-string parser, the press matcher, and the stateful handler
produced by createKeybindingsHandler, together with theorems checking the
natural-language specification against them.
-/

namespace Tinykeys

/-- A parsed key press: `[string[], string]` in the source — the list of
required modifier names together with the primary key. -/
abbrev KeyBindingPress := List String × String

/-- The fields of a DOM KeyboardEvent read by the library: the logical key,
the physical code, the repeat flag, and the live modifier-state query, which
may be absent on some events (a Chrome bug the source works around). -/
structure KeyboardEvent where
  key : String
  code : String
  isRepeat : Bool
  getModifierStateFn : Option (String → Bool)

/-- The `KEYBINDING_MODIFIER_KEYS` list: the modifier keys that change the meaning of
keybindings. -/
def KEYBINDING_MODIFIER_KEYS : List String := ["Shift", "Meta", "Alt", "Control"]

/-- The `DEFAULT_TIMEOUT` constant: sequences time out if presses are more than 1s apart. -/
def DEFAULT_TIMEOUT : Nat := 1000

/-- The `MOD` alias: the platform-specific primary modifier: Meta on Apple-family
platforms (navigator.platform matches Mac|iPod|iPhone|iPad), Control
otherwise. -/
def MOD (applePlatform : Bool) : String :=
  if applePlatform then "Meta" else "Control"

/-- The source function `getModifierState(event, mod)`: queries the event's modifier state,
reporting false when the facility is absent on the event. -/
def getModifierState (event : KeyboardEvent) (mod : String) : Bool :=
  match event.getModifierStateFn with
  | some f => f mod
  | none => false

/-- A JavaScript word character, as matched by `\w` (and tested by the
word-boundary assertion `\b`): ASCII letters, digits and underscore. -/
def isWordChar (c : Char) : Bool :=
  c.isAlphanum || c = '_'

/-- Splitting on the regex `\b\+`: a `+` is a separator exactly when the
character immediately before it in the string is a word character. `acc`
holds the characters of the current piece in reverse, so its head is the
character immediately preceding the current position (after a separator is
consumed the predecessor is that `+`, a non-word character, and `acc` is
empty, so no boundary is seen — matching the regex engine). -/
def splitPlusAux : List Char → List Char → List (List Char)
  | [], acc => [acc.reverse]
  | c :: rest, acc =>
    if c = '+' && isWordChar (acc.headD ' ') then
      acc.reverse :: splitPlusAux rest []
    else
      splitPlusAux rest (c :: acc)

/-- The source expression `press.split(/\b\+/)`. -/
def splitWordBoundaryPlus (s : List Char) : List (List Char) :=
  splitPlusAux s []

/-- JavaScript `str.split(" ")`: split on each single space, keeping empty
pieces ("" splits to [""], consecutive spaces produce empty tokens). -/
def jsSplitSpace : List Char → List (List Char)
  | [] => [[]]
  | c :: rest =>
    if c = ' ' then
      [] :: jsSplitSpace rest
    else
      match jsSplitSpace rest with
      | t :: ts => (c :: t) :: ts
      | [] => [[c]]

/-- JavaScript `str.trim()`: strip whitespace from both ends. -/
def jsTrim (s : List Char) : List Char :=
  ((s.dropWhile Char.isWhitespace).reverse.dropWhile Char.isWhitespace).reverse

/-- JavaScript `toUpperCase`, as it acts on the ASCII key names involved
here: uppercase each character. (Lean's own String.toUpper is the same map
but is structured so that it does not reduce definitionally.) -/
def jsToUpper (s : String) : String :=
  String.mk (s.data.map Char.toUpper)

/-- JavaScript truthiness of a `.find` result on an array of strings:
`undefined` and the empty string are falsy, every other string is truthy. -/
def jsTruthy : Option String → Bool
  | none => false
  | some s => s ≠ ""

/-- One token of a keybinding string: split at word-boundary-anchored `+`,
pop the last segment as the primary key, and resolve the `$mod` alias in the
remaining (modifier) segments. `MODv` is the platform's resolved `MOD`. -/
def parsePress (MODv : String) (press : List Char) : KeyBindingPress :=
  let segs := (splitWordBoundaryPlus press).map String.mk
  let key := segs.getLastD ""
  let mods := segs.dropLast.map fun m => if m = "$mod" then MODv else m
  (mods, key)

/-- The source function `parseKeybinding(str)`: trim, split on spaces into press tokens, and
parse each token. -/
def parseKeybinding (MODv : String) (str : String) : List KeyBindingPress :=
  (jsSplitSpace (jsTrim str.data)).map (parsePress MODv)

/-- The source function `match(event, press)`: the press matcher. The source negates a
disjunction of three rejection conditions; the two `.find` calls contribute
their JavaScript truthiness. -/
def matchPress (event : KeyboardEvent) (press : KeyBindingPress) : Bool :=
  !(
    (jsToUpper press.2 ≠ jsToUpper event.key && press.2 ≠ event.code)
    || jsTruthy (press.1.find? fun mod => !getModifierState event mod)
    || jsTruthy (KEYBINDING_MODIFIER_KEYS.find? fun mod =>
        !press.1.contains mod && press.2 ≠ mod && getModifierState event mod)
  )

/-- A progress entry for one binding: `none` means the binding is absent
from `possibleMatches` (not started); `some remaining` stores the remaining
expected presses. -/
abbrev ProgressEntry := Option (List KeyBindingPress)

/-- One registered binding: its parsed sequence, and whether its callback
throws when invoked (callbacks are opaque to the handler; only whether they
raise matters to its control flow). -/
abbrev Binding := List KeyBindingPress × Bool

/-- The mutable state captured by the closure `createKeybindingsHandler`
returns: the `possibleMatches` table, one slot per binding (keyed in the
source by the identity of the parsed sequence array, hence positionally
here), and the pending abandonment-timer handle. -/
structure HandlerState where
  possibleMatches : List ProgressEntry
  timer : Option Nat
  deriving DecidableEq

/-- An event delivered to the handler: a KeyboardEvent, or any other kind
of Event (the source checks `event instanceof KeyboardEvent`). -/
inductive Event where
  | keyboard (e : KeyboardEvent)
  | other

/-- The options accepted by `createKeybindingsHandler`; both fields are
optional in the source (`undefined` is falsy / replaced by the default). -/
structure KeyBindingHandlerOptions where
  timeout : Option Nat
  allowRepeat : Option Bool

/-- The result of delivering one event to the handler: the new state, a
per-binding flag telling whether that binding's callback was invoked, and
whether a callback's exception escaped the handler. -/
structure StepResult where
  state : HandlerState
  fired : List Bool
  exc : Bool
  deriving DecidableEq

/-- The body of the `keyBindings.forEach` callback for one binding: from
the stored progress entry (`prev`) compute the new entry and whether the
callback fires. The `[]` case is unreachable for sequences produced by
`parseKeybinding` (they are non-empty, and entries are non-empty suffixes). -/
def stepBinding (event : KeyboardEvent) (sequence : List KeyBindingPress)
    (prev : ProgressEntry) : ProgressEntry × Bool :=
  match prev.getD sequence with
  | [] => (none, false)
  | current :: rest =>
    if matchPress event current then
      if rest.isEmpty then (none, true) else (some rest, false)
    else
      if getModifierState event event.key then (prev, false) else (none, false)

/-- The `keyBindings.forEach` loop: process bindings in registration order
against their aligned progress slots. When a fired callback throws, the
loop stops: that binding's slot was already cleared, later bindings keep
their old slots and are not evaluated, and the escape flag is set. -/
def runBindings (event : KeyboardEvent) :
    List Binding → List ProgressEntry →
    List ProgressEntry × List Bool × Bool
  | [], prog => (prog, [], false)
  | (sequence, throws) :: bs, prog =>
    let r := stepBinding event sequence (prog.headD none)
    if r.2 && throws then
      (r.1 :: prog.tail, r.2 :: List.replicate bs.length false, true)
    else
      let rest := runBindings event bs prog.tail
      (r.1 :: rest.1, r.2 :: rest.2.1, rest.2.2)

/-- The event listener returned by `createKeybindingsHandler`: drop
non-KeyboardEvents and suppressed repeats untouched; otherwise run every
binding, then (unless a callback's exception escaped first) cancel and
reschedule the abandonment timer for `timeout` milliseconds. -/
def handleEvent (bindings : List Binding) (options : KeyBindingHandlerOptions)
    (st : HandlerState) (ev : Event) : StepResult :=
  match ev with
  | .other => ⟨st, List.replicate bindings.length false, false⟩
  | .keyboard e =>
    if !(options.allowRepeat.getD false) && e.isRepeat then
      ⟨st, List.replicate bindings.length false, false⟩
    else
      let r := runBindings e bindings st.possibleMatches
      if r.2.2 then
        ⟨⟨r.1, st.timer⟩, r.2.1, true⟩
      else
        ⟨⟨r.1, some (options.timeout.getD DEFAULT_TIMEOUT)⟩, r.2.1, false⟩

/-- The abandonment timer firing: `possibleMatches.clear()` — every slot
becomes absent; the timer handle is spent. -/
def fireTimer (st : HandlerState) : HandlerState :=
  ⟨List.replicate st.possibleMatches.length none, none⟩

/-- The state of a fresh handler: empty `possibleMatches`, no timer. -/
def initialState (bindings : List Binding) : HandlerState :=
  ⟨List.replicate bindings.length none, none⟩

/-- The states a handler can be in: the initial state, closed under
delivering any event and under the abandonment timer firing. -/
inductive Reachable (bindings : List Binding) (options : KeyBindingHandlerOptions) :
    HandlerState → Prop
  | init : Reachable bindings options (initialState bindings)
  | step (st : HandlerState) (ev : Event) :
      Reachable bindings options st →
      Reachable bindings options (handleEvent bindings options st ev).state
  | fire (st : HandlerState) :
      Reachable bindings options st →
      Reachable bindings options (fireTimer st)

/-- A subscription made by `tinykeys(target, map, options)`: whether the
listener is still attached to the target, plus the handler's closure state. -/
structure SubscriptionState where
  attached : Bool
  handler : HandlerState

/-- The unsubscribe function `tinykeys` returns: it only calls
`target.removeEventListener` — the handler state (timer included) is not
touched. -/
def tinykeysUnsub (s : SubscriptionState) : SubscriptionState :=
  { s with attached := false }

/-- The event target delivering one event: listeners are invoked only while
attached (the external event-source contract). -/
def dispatch (bindings : List Binding) (options : KeyBindingHandlerOptions)
    (s : SubscriptionState) (ev : Event) : SubscriptionState × List Bool × Bool :=
  if s.attached then
    let r := handleEvent bindings options s.handler ev
    (⟨s.attached, r.state⟩, r.fired, r.exc)
  else
    (s, [], false)

/-! Concrete events, bindings and option records used to instantiate the
theorems below on closed inputs. -/

/-- A keydown of `d` with only Shift held. -/
def eventShiftD : KeyboardEvent :=
  ⟨"d", "KeyD", false, some fun m => m = "Shift"⟩

/-- A keydown of `d` with Shift and Control held. -/
def eventCtrlShiftD : KeyboardEvent :=
  ⟨"d", "KeyD", false, some fun m => m = "Shift" || m = "Control"⟩

/-- A keydown of `d` with no modifier held. -/
def eventPlainD : KeyboardEvent :=
  ⟨"d", "KeyD", false, some fun _ => false⟩

/-- A keydown of the Control key itself while Shift is also held: the
active modifier set is then Shift and Control. -/
def eventShiftCtrlDown : KeyboardEvent :=
  ⟨"Control", "ControlLeft", false, some fun m => m = "Shift" || m = "Control"⟩

/-- A keydown of the Control key itself, with only Control active. -/
def eventCtrlDown : KeyboardEvent :=
  ⟨"Control", "ControlLeft", false, some fun m => m = "Control"⟩

/-- A plain keydown of `y`. -/
def eventY : KeyboardEvent :=
  ⟨"y", "KeyY", false, some fun _ => false⟩

/-- A repeated keydown of `y` (the key held down). -/
def eventYRepeat : KeyboardEvent :=
  ⟨"y", "KeyY", true, some fun _ => false⟩

/-- A plain keydown of `e`. -/
def eventE : KeyboardEvent :=
  ⟨"e", "KeyE", false, some fun _ => false⟩

/-- A single registered binding for the two-press sequence "y e". -/
def bindingsYE : List Binding :=
  [([([], "y"), ([], "e")], false)]

/-- Three bindings: "x" (no match on `y`), then "y" whose callback throws,
then another "y" whose callback is harmless. -/
def bindingsThrow : List Binding :=
  [([([], "x")], false), ([([], "y")], true), ([([], "y")], false)]

/-- Options with every field left undefined. -/
def optionsNone : KeyBindingHandlerOptions := ⟨none, none⟩

/-- Options enabling repeat events. -/
def optionsRepeat : KeyBindingHandlerOptions := ⟨none, some true⟩

/-! Theorems. -/

/-- Helper: `splitPlusAux` never returns an empty list of pieces. -/
lemma splitPlusAux_ne_nil (s acc : List Char) : splitPlusAux s acc ≠ [] := by
  induction s generalizing acc with
  | nil => simp [splitPlusAux]
  | cons c rest ih =>
    rw [splitPlusAux]
    split
    · simp
    · exact ih (c :: acc)

/-- Helper: every piece but the last produced by the word-boundary split is
non-empty (a separator fires only when the preceding character is a word
character, which then belongs to the emitted piece). -/
lemma splitPlusAux_dropLast_ne_nil (s : List Char) :
    ∀ (acc : List Char), ∀ piece ∈ (splitPlusAux s acc).dropLast, piece ≠ [] := by
  induction s with
  | nil => intro acc piece hmem; simp [splitPlusAux] at hmem
  | cons c rest ih =>
    intro acc piece hmem
    rw [splitPlusAux] at hmem
    by_cases hc : (c = '+' && isWordChar (acc.headD ' ')) = true
    · rw [if_pos hc] at hmem
      rw [List.dropLast_cons_of_ne_nil (splitPlusAux_ne_nil rest [])] at hmem
      rcases List.mem_cons.mp hmem with h | h
      · subst h
        cases acc with
        | nil =>
          have hw : isWordChar ' ' = false := by decide
          rw [List.headD_nil, hw, Bool.and_false] at hc
          exact Bool.noConfusion hc
        | cons p acc' => simp
      · exact ih [] piece h
    · rw [if_neg hc] at hmem
      exact ih (c :: acc) piece hmem

/-- Helper: every modifier name in a press parsed with a non-empty `MOD`
value is a non-empty string. -/
lemma parse_mod_ne_empty (M : String) (hM : M ≠ "") (s : String)
    (p : KeyBindingPress) (hp : p ∈ parseKeybinding M s) :
    ∀ m ∈ p.1, m ≠ "" := by
  intro m hm
  rcases List.mem_map.mp hp with ⟨tok, _, htok⟩
  subst htok
  simp only [parsePress] at hm
  rcases List.mem_map.mp hm with ⟨seg, hseg, hsub⟩
  rw [← List.map_dropLast] at hseg
  rcases List.mem_map.mp hseg with ⟨piece, hpiece, hmk⟩
  have hpne : piece ≠ [] := splitPlusAux_dropLast_ne_nil tok [] piece hpiece
  have hsegne : seg ≠ "" := by
    subst hmk
    intro hcontra
    exact hpne (congrArg String.data hcontra)
  subst hsub
  split
  · exact hM
  · exact hsegne

/-- Helper: JavaScript truthiness of an array `.find` is false exactly when
no element satisfies the predicate, provided no element is the empty string
(an empty-string hit would also be falsy). -/
lemma jsTruthy_find?_eq_false {l : List String} {q : String → Bool}
    (h : ∀ m ∈ l, m ≠ "") :
    jsTruthy (l.find? q) = false ↔ ∀ m ∈ l, q m = false := by
  cases hfind : l.find? q with
  | none =>
    simp only [jsTruthy, true_iff]
    intro m hm
    have := List.find?_eq_none.mp hfind m hm
    simpa using this
  | some s =>
    have hs : s ∈ l := List.mem_of_find?_eq_some hfind
    have hq : q s = true := List.find?_some hfind
    have hne : s ≠ "" := h s hs
    have ht : jsTruthy (some s) = true := by simp [jsTruthy, hne]
    rw [ht]
    simp only [Bool.true_eq_false, false_iff, not_forall]
    exact ⟨s, hs, by simp [hq]⟩

/-- Helper: the press matcher characterized as the conjunction of the three
acceptance conditions, for presses whose modifier names are non-empty. -/
lemma matchPress_eq_true_iff (e : KeyboardEvent) (p : KeyBindingPress)
    (h : ∀ m ∈ p.1, m ≠ "") :
    matchPress e p = true ↔
      (jsToUpper p.2 = jsToUpper e.key ∨ p.2 = e.code) ∧
      (∀ m ∈ p.1, getModifierState e m = true) ∧
      (∀ m ∈ KEYBINDING_MODIFIER_KEYS,
        getModifierState e m = true → m ∈ p.1 ∨ p.2 = m) := by
  unfold matchPress
  rw [Bool.not_eq_true', Bool.or_eq_false_iff, Bool.or_eq_false_iff,
    jsTruthy_find?_eq_false h, jsTruthy_find?_eq_false (by decide)]
  constructor
  · rintro ⟨⟨h1, h2⟩, h3⟩
    refine ⟨?_, ?_, ?_⟩
    · rcases Bool.and_eq_false_iff.mp h1 with h1' | h1'
      · exact Or.inl (by simpa using h1')
      · exact Or.inr (by simpa using h1')
    · intro m hm
      have := h2 m hm
      simpa using this
    · intro m hm hstate
      have := h3 m hm
      simp only [Bool.and_eq_false_iff] at this
      rcases this with (hcont | hkey) | hst
      · exact Or.inl (by simpa using hcont)
      · exact Or.inr (by simpa using hkey)
      · rw [hstate] at hst
        exact absurd hst (by simp)
  · rintro ⟨h1, h2, h3⟩
    refine ⟨⟨?_, ?_⟩, ?_⟩
    · rcases h1 with h1' | h1'
      · simp [h1']
      · simp [h1']
    · intro m hm
      simp [h2 m hm]
    · intro m hm
      simp only [Bool.and_eq_false_iff]
      by_cases hstate : getModifierState e m = true
      · rcases h3 m hm hstate with hmem | hkey
        · exact Or.inl (Or.inl (by simpa using hmem))
        · exact Or.inl (Or.inr (by simp [hkey]))
      · exact Or.inr (by simpa using hstate)

/-- Claim C1 counterexample: the claim's clause "an event presenting a
strict superset of those modifiers does not match" fails when the press's
primary key is itself one of the fixed modifier keys. The single-chord
binding "Shift+Control" parses to the press (["Shift"], "Control") with the
non-empty modifier set containing only Shift; the keydown of Control with
Shift held presents the active modifier set containing Shift and Control — a
strict superset of the press's modifier set — and its key matches, yet the
matcher accepts, because the extraneous-modifier check exempts the press's
own primary key. -/
theorem claim_C1_counterexample :
    parseKeybinding (MOD false) "Shift+Control" = [(["Shift"], "Control")] ∧
    getModifierState eventShiftCtrlDown "Shift" = true ∧
    getModifierState eventShiftCtrlDown "Control" = true ∧
    getModifierState eventShiftCtrlDown "Meta" = false ∧
    getModifierState eventShiftCtrlDown "Alt" = false ∧
    ("Shift" : String) ∈ (["Shift"] : List String) ∧
    ("Control" : String) ∉ (["Shift"] : List String) ∧
    matchPress eventShiftCtrlDown (["Shift"], "Control") = true := by
  refine ⟨rfl, ?_⟩
  decide

/-- Claim C1 amended: for every press parsed with the platform modifier and
every event, the matcher accepts iff (1) the press's key equals the event's
logical key case-insensitively or its physical code exactly, (2) every
listed modifier is active, and (3) no fixed modifier is active while being
neither listed nor the press's primary key. For a single-chord press whose
modifiers are drawn from the fixed set: an event presenting exactly that
modifier set with a matching key matches; an event presenting a strict
subset does not; an event presenting a strict superset does not, provided
(the amendment) some extra presented modifier differs from the press's
primary key. -/
theorem claim_C1_amended :
    (∀ (apple : Bool) (s : String) (p : KeyBindingPress),
      p ∈ parseKeybinding (MOD apple) s → ∀ e : KeyboardEvent,
      (matchPress e p = true ↔
        (jsToUpper p.2 = jsToUpper e.key ∨ p.2 = e.code) ∧
        (∀ m ∈ p.1, getModifierState e m = true) ∧
        (∀ m ∈ KEYBINDING_MODIFIER_KEYS,
          getModifierState e m = true → m ∈ p.1 ∨ p.2 = m))) ∧
    (∀ (p : KeyBindingPress) (e : KeyboardEvent),
      p.1 ≠ [] → (∀ m ∈ p.1, m ∈ KEYBINDING_MODIFIER_KEYS) →
      (jsToUpper p.2 = jsToUpper e.key ∨ p.2 = e.code) →
      (∀ m ∈ KEYBINDING_MODIFIER_KEYS, (getModifierState e m = true ↔ m ∈ p.1)) →
      matchPress e p = true) ∧
    (∀ (p : KeyBindingPress) (e : KeyboardEvent) (S : List String),
      (∀ m ∈ p.1, m ∈ KEYBINDING_MODIFIER_KEYS) →
      (∀ m ∈ KEYBINDING_MODIFIER_KEYS, (getModifierState e m = true ↔ m ∈ S)) →
      (∀ m ∈ S, m ∈ p.1) → (∃ m ∈ p.1, m ∉ S) →
      matchPress e p = false) ∧
    (∀ (p : KeyBindingPress) (e : KeyboardEvent) (S : List String),
      (∀ m ∈ S, m ∈ KEYBINDING_MODIFIER_KEYS) →
      (∀ m ∈ KEYBINDING_MODIFIER_KEYS, (getModifierState e m = true ↔ m ∈ S)) →
      (∀ m ∈ p.1, m ∈ S) → (∃ m ∈ S, m ∉ p.1 ∧ p.2 ≠ m) →
      matchPress e p = false) := by
  have hKMK : ∀ m ∈ KEYBINDING_MODIFIER_KEYS, m ≠ "" := by decide
  refine ⟨?_, ?_, ?_, ?_⟩
  · intro apple s p hp e
    have hM : MOD apple ≠ "" := by cases apple <;> decide
    exact matchPress_eq_true_iff e p (parse_mod_ne_empty (MOD apple) hM s p hp)
  · intro p e _ hsub hkey hpres
    have hne : ∀ m ∈ p.1, m ≠ "" := fun m hm => hKMK m (hsub m hm)
    rw [matchPress_eq_true_iff e p hne]
    refine ⟨hkey, ?_, ?_⟩
    · intro m hm
      exact (hpres m (hsub m hm)).mpr hm
    · intro m hm hstate
      exact Or.inl ((hpres m hm).mp hstate)
  · intro p e S hsub hpres hSsub hmiss
    rcases hmiss with ⟨m0, hm0p, hm0S⟩
    have hne : ∀ m ∈ p.1, m ≠ "" := fun m hm => hKMK m (hsub m hm)
    rw [Bool.eq_false_iff]
    intro hmatch
    rcases (matchPress_eq_true_iff e p hne).mp hmatch with ⟨_, h2, _⟩
    have : getModifierState e m0 = true := h2 m0 hm0p
    exact hm0S ((hpres m0 (hsub m0 hm0p)).mp this)
  · intro p e S hSsub hpres hsubS hextra
    rcases hextra with ⟨m1, hm1S, hm1p, hm1key⟩
    have hne : ∀ m ∈ p.1, m ≠ "" := by
      intro m hm
      exact hKMK m (hSsub m (hsubS m hm))
    rw [Bool.eq_false_iff]
    intro hmatch
    rcases (matchPress_eq_true_iff e p hne).mp hmatch with ⟨_, _, h3⟩
    have hstate : getModifierState e m1 = true := (hpres m1 (hSsub m1 hm1S)).mpr hm1S
    rcases h3 m1 (hSsub m1 hm1S) hstate with hmem | hkey
    · exact hm1p hmem
    · exact hm1key hkey

/-- Witness for claim C1 amended: the binding "Shift+d" on a non-Apple
platform, against the keydown of `d` with exactly Shift held (match), with
no modifier held (strict subset: no match), and with Shift and Control held
(strict superset by a modifier other than the key: no match); plus the full
characterization instantiated on the matching event. -/
theorem claim_C1_amended_witness :
    matchPress eventShiftD (["Shift"], "d") = true ∧
    matchPress eventPlainD (["Shift"], "d") = false ∧
    matchPress eventCtrlShiftD (["Shift"], "d") = false ∧
    (matchPress eventShiftD (["Shift"], "d") = true ↔
      (jsToUpper "d" = jsToUpper eventShiftD.key ∨ "d" = eventShiftD.code) ∧
      (∀ m ∈ (["Shift"] : List String), getModifierState eventShiftD m = true) ∧
      (∀ m ∈ KEYBINDING_MODIFIER_KEYS,
        getModifierState eventShiftD m = true →
          m ∈ (["Shift"] : List String) ∨ "d" = m)) :=
  ⟨claim_C1_amended.2.1 (["Shift"], "d") eventShiftD (by decide) (by decide)
      (by decide) (by decide),
   claim_C1_amended.2.2.1 (["Shift"], "d") eventPlainD [] (by decide) (by decide)
      (by decide) ⟨"Shift", by decide, by decide⟩,
   claim_C1_amended.2.2.2 (["Shift"], "d") eventCtrlShiftD ["Shift", "Control"]
      (by decide) (by decide) (by decide) ⟨"Control", by decide, by decide, by decide⟩,
   claim_C1_amended.1 false "Shift+d" (["Shift"], "d") (by decide) eventShiftD⟩

/-- Claim C3: parse returns one KeyPress per space-separated token of the
trimmed input, preserving token order; within each token the segments before
the last (split at a word-boundary-anchored `+`) are the modifiers, with the
alias `$mod` replaced by the resolved platform modifier, and the final
segment is the primary key taken verbatim; a bare key token yields an empty
modifier list; parsing is total. The last two conjuncts instantiate this: a
bare key, and a token whose primary key is a literal `+` (which a naive
split would lose). -/
theorem claim_C3 (M : String) (str : String) :
    (parseKeybinding M str).length = (jsSplitSpace (jsTrim str.data)).length ∧
    (∀ i : Nat,
      (parseKeybinding M str)[i]? =
        ((jsSplitSpace (jsTrim str.data))[i]?).map (fun tok =>
          (((splitWordBoundaryPlus tok).map String.mk).dropLast.map
              (fun m => if m = "$mod" then M else m),
           ((splitWordBoundaryPlus tok).map String.mk).getLastD ""))) ∧
    parseKeybinding M "k" = [([], "k")] ∧
    parseKeybinding M "$mod++ b" = [([M], "+"), ([], "b")] := by
  refine ⟨?_, ?_, ?_, ?_⟩
  · simp [parseKeybinding]
  · intro i
    simp only [parseKeybinding, List.getElem?_map]
    cases (jsSplitSpace (jsTrim str.data))[i]? with
    | none => rfl
    | some tok => simp [parsePress]
  · rfl
  · rfl

/-- Claim C10: the `$mod` alias is substituted only in modifier position;
as the final segment of a token it is kept verbatim as the primary key, so
the token `$mod` alone parses to a press with empty modifiers and the
literal key `$mod`. The last conjunct states verbatimness in general: the
parsed primary key of any token is exactly its last split segment, with no
substitution applied. -/
theorem claim_C10 (M : String) :
    parseKeybinding M "$mod" = [([], "$mod")] ∧
    parseKeybinding M "$mod+$mod" = [([M], "$mod")] ∧
    (∀ tok : List Char,
      (parsePress M tok).2 = ((splitWordBoundaryPlus tok).map String.mk).getLastD "") := by
  exact ⟨rfl, rfl, fun tok => rfl⟩

/-- Claim C9: in the extraneous-modifier check the press's primary key is
compared to the modifier name verbatim (case-sensitively), unlike the
primary-key match which is case-insensitive on the event's logical key: on
an event whose logical key spells Control (in any case) with the Control
modifier active and no other fixed modifier active, the press with key
"control" is rejected while the press with key "Control" is accepted. -/
theorem claim_C9 (e : KeyboardEvent)
    (hkey : jsToUpper e.key = "CONTROL")
    (hctrl : getModifierState e "Control" = true)
    (hshift : getModifierState e "Shift" = false)
    (hmeta : getModifierState e "Meta" = false)
    (halt : getModifierState e "Alt" = false) :
    matchPress e ([], "control") = false ∧ matchPress e ([], "Control") = true := by
  have hup1 : jsToUpper "control" = "CONTROL" := by decide
  have hup2 : jsToUpper "Control" = "CONTROL" := by decide
  constructor
  · simp [matchPress, jsTruthy, KEYBINDING_MODIFIER_KEYS, List.find?,
      hkey, hctrl, hshift, hmeta, halt, hup1]
  · simp [matchPress, jsTruthy, KEYBINDING_MODIFIER_KEYS, List.find?,
      hkey, hctrl, hshift, hmeta, halt, hup2]

/-- Witness for claim C9 on the concrete Control keydown event. -/
theorem claim_C9_witness :
    matchPress eventCtrlDown ([], "control") = false ∧
    matchPress eventCtrlDown ([], "Control") = true :=
  claim_C9 eventCtrlDown (by decide) (by decide) (by decide) (by decide) (by decide)

/-- Helper: the head-with-default of a list is its entry 0 with default. -/
lemma headD_eq_getD_zero (l : List ProgressEntry) : l.headD none = l.getD 0 none := by
  cases l <;> rfl

/-- Helper: indexing the tail shifts the index by one. -/
lemma tail_getD (l : List ProgressEntry) (n : Nat) :
    l.tail.getD n none = l.getD (n + 1) none := by
  cases l <;> rfl

/-- Helper: indexing the tail shifts getElem? by one. -/
lemma tail_getElem? (l : List ProgressEntry) (n : Nat) :
    l.tail[n]? = l[n + 1]? := by
  cases l with
  | nil => rfl
  | cons a l => simp [List.getElem?_cons_succ]

/-- Helper: the step of one binding when the remaining list is empty (the
degenerate, unreachable shape). -/
lemma stepBinding_nil (e : KeyboardEvent) (s : List KeyBindingPress)
    (prev : ProgressEntry) (hrem : prev.getD s = []) :
    stepBinding e s prev = (none, false) := by
  unfold stepBinding
  rw [hrem]

/-- Helper: the step of one binding, written out from a known remaining
list. -/
lemma stepBinding_cases (e : KeyboardEvent) (s : List KeyBindingPress)
    (prev : ProgressEntry) (cur : KeyBindingPress) (rest : List KeyBindingPress)
    (hrem : prev.getD s = cur :: rest) :
    stepBinding e s prev =
      if matchPress e cur then
        (if rest.isEmpty then (none, true) else (some rest, false))
      else if getModifierState e e.key then (prev, false) else (none, false) := by
  unfold stepBinding
  rw [hrem]

/-- Helper: a binding whose step fires has its progress entry cleared in
that same step. -/
lemma stepBinding_fired (e : KeyboardEvent) (s : List KeyBindingPress)
    (prev : ProgressEntry) (h : (stepBinding e s prev).2 = true) :
    (stepBinding e s prev).1 = none := by
  cases hrem : prev.getD s with
  | nil =>
    rw [stepBinding_nil e s prev hrem] at h
    exact absurd h (by simp)
  | cons cur rest =>
    rw [stepBinding_cases e s prev cur rest hrem] at h ⊢
    by_cases hm : matchPress e cur = true
    · rw [if_pos hm] at h ⊢
      by_cases he : rest.isEmpty = true
      · rw [if_pos he]
      · rw [if_neg he] at h
        exact absurd h (by simp)
    · rw [if_neg hm] at h ⊢
      by_cases hg : getModifierState e e.key = true
      · rw [if_pos hg] at h
        exact absurd h (by simp)
      · rw [if_neg hg]

/-- Helper: with no throwing callbacks, the forEach loop raises nothing,
preserves the slot count, and computes every binding's new slot and fired
flag independently from that binding's own previous slot. -/
lemma runBindings_spec (e : KeyboardEvent) :
    ∀ (bs : List Binding) (prog : List ProgressEntry),
      prog.length = bs.length →
      (∀ b ∈ bs, b.2 = false) →
      (runBindings e bs prog).2.2 = false ∧
      (runBindings e bs prog).1.length = bs.length ∧
      (runBindings e bs prog).2.1.length = bs.length ∧
      ∀ i : Nat,
        (runBindings e bs prog).1[i]? =
          (bs[i]?).map (fun b => (stepBinding e b.1 (prog.getD i none)).1) ∧
        (runBindings e bs prog).2.1[i]? =
          (bs[i]?).map (fun b => (stepBinding e b.1 (prog.getD i none)).2) := by
  intro bs
  induction bs with
  | nil =>
    intro prog hlen _
    have hp : prog = [] := List.length_eq_zero.mp hlen
    subst hp
    refine ⟨rfl, rfl, rfl, ?_⟩
    intro i
    simp [runBindings]
  | cons b bs ih =>
    intro prog hlen hthrow
    obtain ⟨sequence, throws⟩ := b
    have hth : throws = false :=
      hthrow (sequence, throws) (List.mem_cons_self _ _)
    subst hth
    cases prog with
    | nil => exact absurd hlen (by simp)
    | cons p prog' =>
      have hlen' : prog'.length = bs.length := by simpa using hlen
      have hthrow' : ∀ x ∈ bs, x.2 = false :=
        fun x hx => hthrow x (List.mem_cons_of_mem _ hx)
      obtain ⟨hexc, hplen, hflen, hidx⟩ := ih prog' hlen' hthrow'
      rw [runBindings]
      simp only [Bool.and_false, Bool.false_eq_true, if_false, List.tail_cons]
      refine ⟨hexc, by simpa using hplen, by simpa using hflen, ?_⟩
      intro i
      cases i with
      | zero =>
        simp [List.headD_cons]
      | succ i' =>
        have h' := hidx i'
        simp only [List.getElem?_cons_succ, List.getD_cons_succ, List.headD_cons]
        exact h'

/-- Helper: the handler on a qualifying keyboard event when no callback
raises: run every binding, then reschedule the timer. -/
lemma handleEvent_keyboard_no_exc (bindings : List Binding)
    (options : KeyBindingHandlerOptions) (st : HandlerState) (e : KeyboardEvent)
    (hgate : (!(options.allowRepeat.getD false) && e.isRepeat) = false)
    (hexc : (runBindings e bindings st.possibleMatches).2.2 = false) :
    handleEvent bindings options st (.keyboard e) =
      ⟨⟨(runBindings e bindings st.possibleMatches).1,
        some (options.timeout.getD DEFAULT_TIMEOUT)⟩,
       (runBindings e bindings st.possibleMatches).2.1, false⟩ := by
  simp only [handleEvent, hgate, hexc, Bool.false_eq_true, if_false]

/-- Helper: the handler on a qualifying keyboard event when a callback's
exception escapes: the timer lines are never reached. -/
lemma handleEvent_keyboard_exc (bindings : List Binding)
    (options : KeyBindingHandlerOptions) (st : HandlerState) (e : KeyboardEvent)
    (hgate : (!(options.allowRepeat.getD false) && e.isRepeat) = false)
    (hexc : (runBindings e bindings st.possibleMatches).2.2 = true) :
    handleEvent bindings options st (.keyboard e) =
      ⟨⟨(runBindings e bindings st.possibleMatches).1, st.timer⟩,
       (runBindings e bindings st.possibleMatches).2.1, true⟩ := by
  simp only [handleEvent, hgate, hexc, Bool.false_eq_true, if_false, if_true]

/-- Claim C2: on a qualifying event, with no callback raising, the handler
updates each binding's progress independently: with `cur :: rest` the
remaining presses of binding `i` (its stored entry, or its full sequence if
absent), a non-match deletes the entry unless the event's own key is a
currently-active modifier (progress is then left unchanged); a match with
more presses left stores `rest`; a match of the last press clears the entry
and invokes the callback. All bindings are evaluated, in order, with no
short-circuiting. -/
theorem claim_C2 (bindings : List Binding) (options : KeyBindingHandlerOptions)
    (st : HandlerState) (e : KeyboardEvent)
    (hgate : (!(options.allowRepeat.getD false) && e.isRepeat) = false)
    (hlen : st.possibleMatches.length = bindings.length)
    (hthrow : ∀ b ∈ bindings, b.2 = false) :
    (handleEvent bindings options st (.keyboard e)).fired.length = bindings.length ∧
    (handleEvent bindings options st (.keyboard e)).state.possibleMatches.length
      = bindings.length ∧
    ∀ (i : Nat) (seq : List KeyBindingPress) (cb : Bool)
      (cur : KeyBindingPress) (rest : List KeyBindingPress),
      bindings[i]? = some (seq, cb) →
      (st.possibleMatches.getD i none).getD seq = cur :: rest →
      ((matchPress e cur = false → getModifierState e e.key = false →
        (handleEvent bindings options st (.keyboard e)).state.possibleMatches[i]?
            = some none ∧
        (handleEvent bindings options st (.keyboard e)).fired[i]? = some false) ∧
       (matchPress e cur = false → getModifierState e e.key = true →
        (handleEvent bindings options st (.keyboard e)).state.possibleMatches[i]?
            = some (st.possibleMatches.getD i none) ∧
        (handleEvent bindings options st (.keyboard e)).fired[i]? = some false) ∧
       (matchPress e cur = true → rest ≠ [] →
        (handleEvent bindings options st (.keyboard e)).state.possibleMatches[i]?
            = some (some rest) ∧
        (handleEvent bindings options st (.keyboard e)).fired[i]? = some false) ∧
       (matchPress e cur = true → rest = [] →
        (handleEvent bindings options st (.keyboard e)).state.possibleMatches[i]?
            = some none ∧
        (handleEvent bindings options st (.keyboard e)).fired[i]? = some true)) := by
  obtain ⟨hexc, hplen, hflen, hidx⟩ :=
    runBindings_spec e bindings st.possibleMatches hlen hthrow
  rw [handleEvent_keyboard_no_exc bindings options st e hgate hexc]
  refine ⟨hflen, hplen, ?_⟩
  intro i seq cb cur rest hb hrem
  have hstep := stepBinding_cases e seq (st.possibleMatches.getD i none) cur rest hrem
  have hp := (hidx i).1
  have hf := (hidx i).2
  rw [hb] at hp hf
  simp only [Option.map_some'] at hp hf
  refine ⟨?_, ?_, ?_, ?_⟩
  · intro hm hg
    rw [hstep, if_neg (by simp [hm]), if_neg (by simp [hg])] at hp hf
    exact ⟨hp, hf⟩
  · intro hm hg
    rw [hstep, if_neg (by simp [hm]), if_pos hg] at hp hf
    exact ⟨hp, hf⟩
  · intro hm hrest
    rw [hstep, if_pos hm, if_neg (by simpa using hrest)] at hp hf
    exact ⟨hp, hf⟩
  · intro hm hrest
    subst hrest
    rw [hstep, if_pos hm, if_pos (by simp)] at hp hf
    exact ⟨hp, hf⟩

/-- Witness for claim C2: the binding "y e" with a fresh handler: the `y`
keydown matches the first press, storing the remaining press `e` without
firing. -/
theorem claim_C2_witness :
    (handleEvent bindingsYE optionsNone (initialState bindingsYE)
        (.keyboard eventY)).state.possibleMatches[0]? = some (some [([], "e")]) ∧
    (handleEvent bindingsYE optionsNone (initialState bindingsYE)
        (.keyboard eventY)).fired[0]? = some false :=
  ((claim_C2 bindingsYE optionsNone (initialState bindingsYE) eventY (by decide)
      (by decide) (by decide)).2.2 0 [([], "y"), ([], "e")] false ([], "y")
      [([], "e")] (by decide) (by decide)).2.2.1 (by decide) (by decide)

/-- Helper: the step of one binding reads nothing from the event's repeat
flag. -/
lemma stepBinding_ignore_isRepeat (e : KeyboardEvent) (r : Bool)
    (s : List KeyBindingPress) (prev : ProgressEntry) :
    stepBinding e s prev =
      stepBinding ⟨e.key, e.code, r, e.getModifierStateFn⟩ s prev := rfl

/-- Helper: the forEach loop reads nothing from the event's repeat flag. -/
lemma runBindings_ignore_isRepeat (e : KeyboardEvent) (r : Bool) :
    ∀ (bs : List Binding) (prog : List ProgressEntry),
      runBindings e bs prog =
        runBindings ⟨e.key, e.code, r, e.getModifierStateFn⟩ bs prog := by
  intro bs
  induction bs with
  | nil => intro prog; rfl
  | cons b bs ih =>
    intro prog
    obtain ⟨sequence, throws⟩ := b
    rw [runBindings, runBindings,
      ← stepBinding_ignore_isRepeat e r sequence (prog.headD none), ← ih prog.tail]

/-- Claim C7: a non-KeyboardEvent is discarded untouched (same state, timer
included, nothing fired, no exception); so is a repeat event when
allowRepeat is unset or false; with allowRepeat true, a repeat event is
processed exactly like the identical event with the repeat flag cleared. -/
theorem claim_C7 (bindings : List Binding) (options : KeyBindingHandlerOptions)
    (st : HandlerState) :
    (handleEvent bindings options st Event.other
      = ⟨st, List.replicate bindings.length false, false⟩) ∧
    (∀ e : KeyboardEvent, options.allowRepeat.getD false = false →
      e.isRepeat = true →
      handleEvent bindings options st (.keyboard e)
        = ⟨st, List.replicate bindings.length false, false⟩) ∧
    (∀ e : KeyboardEvent, options.allowRepeat = some true →
      handleEvent bindings options st (.keyboard e) =
        handleEvent bindings options st
          (.keyboard ⟨e.key, e.code, false, e.getModifierStateFn⟩)) := by
  refine ⟨rfl, ?_, ?_⟩
  · intro e har hrep
    simp [handleEvent, har, hrep]
  · intro e har
    simp only [handleEvent, har, Option.getD_some, Bool.not_true, Bool.false_and,
      Bool.false_eq_true, if_false]
    rw [← runBindings_ignore_isRepeat e false bindings st.possibleMatches]

/-- Witness for claim C7: a repeated `y` keydown against the "y e" binding
is dropped with undefined options, and with allowRepeat processed exactly
like the non-repeated `y` keydown. -/
theorem claim_C7_witness :
    handleEvent bindingsYE optionsNone (initialState bindingsYE)
        (.keyboard eventYRepeat)
      = ⟨initialState bindingsYE, [false], false⟩ ∧
    handleEvent bindingsYE optionsRepeat (initialState bindingsYE)
        (.keyboard eventYRepeat)
      = handleEvent bindingsYE optionsRepeat (initialState bindingsYE)
          (.keyboard ⟨eventYRepeat.key, eventYRepeat.code, false,
            eventYRepeat.getModifierStateFn⟩) :=
  ⟨(claim_C7 bindingsYE optionsNone (initialState bindingsYE)).2.1 eventYRepeat
      (by decide) (by decide),
   (claim_C7 bindingsYE optionsRepeat (initialState bindingsYE)).2.2 eventYRepeat
      rfl⟩

/-- Helper: when binding `j` fires and its callback throws, and no earlier
binding both fires and throws, the forEach loop stops at `j`: the escape
flag is set, slot `j` was already cleared and its fired flag set, and every
later binding keeps its old slot and is never evaluated. -/
lemma runBindings_throw (e : KeyboardEvent) :
    ∀ (bs : List Binding) (prog : List ProgressEntry) (j : Nat)
      (seqj : List KeyBindingPress),
      bs[j]? = some (seqj, true) →
      (stepBinding e seqj (prog.getD j none)).2 = true →
      (∀ k, k < j → ∀ b : Binding, bs[k]? = some b → b.2 = true →
        (stepBinding e b.1 (prog.getD k none)).2 = false) →
      (runBindings e bs prog).2.2 = true ∧
      (runBindings e bs prog).1[j]? = some none ∧
      (runBindings e bs prog).2.1[j]? = some true ∧
      (∀ k, j < k → (runBindings e bs prog).1[k]? = prog[k]?) ∧
      (∀ k, j < k → (runBindings e bs prog).2.1[k]? = (bs[k]?).map fun _ => false) := by
  intro bs
  induction bs with
  | nil =>
    intro prog j seqj hj _ _
    exact absurd hj (by simp)
  | cons b bs ih =>
    intro prog j seqj hj hfire hbefore
    obtain ⟨sequence, throws⟩ := b
    cases j with
    | zero =>
      have hj0 : sequence = seqj ∧ throws = true := by
        simpa only [List.getElem?_cons_zero, Option.some.injEq, Prod.mk.injEq]
          using hj
      obtain ⟨rfl, rfl⟩ := hj0
      have hfireH : (stepBinding e sequence (prog.headD none)).2 = true := by
        rw [headD_eq_getD_zero]
        exact hfire
      rw [runBindings]
      rw [if_pos (by rw [hfireH]; rfl)]
      have hcleared := stepBinding_fired e sequence (prog.headD none) hfireH
      refine ⟨rfl, by rw [List.getElem?_cons_zero, hcleared],
        by rw [List.getElem?_cons_zero, hfireH], ?_, ?_⟩
      · intro k hk
        cases k with
        | zero => exact absurd hk (by simp)
        | succ k' => simp [tail_getElem?]
      · intro k hk
        cases k with
        | zero => exact absurd hk (by simp)
        | succ k' =>
          simp only [List.getElem?_cons_succ, List.getElem?_replicate]
          cases hbs : bs[k']? with
          | none =>
            have hlenk : bs.length ≤ k' := List.getElem?_eq_none_iff.mp hbs
            rw [if_neg (by omega)]
            rfl
          | some x =>
            have hlenk : k' < bs.length := (List.getElem?_eq_some_iff.mp hbs).1
            rw [if_pos hlenk]
            rfl
    | succ j' =>
      have hj' : bs[j']? = some (seqj, true) := by simpa using hj
      have hfire' : (stepBinding e seqj (prog.tail.getD j' none)).2 = true := by
        rw [tail_getD]
        exact hfire
      have hbefore' : ∀ k, k < j' → ∀ b : Binding, bs[k]? = some b → b.2 = true →
          (stepBinding e b.1 (prog.tail.getD k none)).2 = false := by
        intro k hk bb hbb hbt
        rw [tail_getD]
        exact hbefore (k + 1) (by omega) bb (by simpa using hbb) hbt
      obtain ⟨hexc, hslotj, hfiredj, hafterp, hafterf⟩ := ih prog.tail j' seqj hj' hfire' hbefore'
      rw [runBindings]
      have hhead : ((stepBinding e sequence (prog.headD none)).2 && throws) = false := by
        by_cases hthr : throws = true
        · have hstep0 : (stepBinding e sequence (prog.getD 0 none)).2 = false :=
            hbefore 0 (by omega) (sequence, throws) (by simp) hthr
          rw [headD_eq_getD_zero, hstep0, Bool.false_and]
        · have hthr' : throws = false := by
            revert hthr
            cases throws <;> simp
          rw [hthr', Bool.and_false]
      rw [if_neg (by rw [hhead]; exact Bool.false_ne_true)]
      refine ⟨hexc, by simpa using hslotj, by simpa using hfiredj, ?_, ?_⟩
      · intro k hk
        cases k with
        | zero => exact absurd hk (by omega)
        | succ k' =>
          simp only [List.getElem?_cons_succ]
          rw [hafterp k' (by omega), tail_getElem?]
      · intro k hk
        cases k with
        | zero => exact absurd hk (by omega)
        | succ k' =>
          simp only [List.getElem?_cons_succ]
          exact hafterf k' (by omega)

/-- Claim C8: if binding `j` completes on a qualifying event and its
callback throws (no earlier binding both firing and throwing), then the
handler propagates the exception with binding `j`'s entry already deleted
and its callback invoked, bindings after `j` keep their entries and are not
evaluated, and the abandonment timer is neither cancelled nor rescheduled. -/
theorem claim_C8 (bindings : List Binding) (options : KeyBindingHandlerOptions)
    (st : HandlerState) (e : KeyboardEvent) (j : Nat) (seqj : List KeyBindingPress)
    (hgate : (!(options.allowRepeat.getD false) && e.isRepeat) = false)
    (hj : bindings[j]? = some (seqj, true))
    (hfire : (stepBinding e seqj (st.possibleMatches.getD j none)).2 = true)
    (hbefore : ∀ k, k < j → ∀ b : Binding, bindings[k]? = some b → b.2 = true →
      (stepBinding e b.1 (st.possibleMatches.getD k none)).2 = false) :
    (handleEvent bindings options st (.keyboard e)).exc = true ∧
    (handleEvent bindings options st (.keyboard e)).state.timer = st.timer ∧
    (handleEvent bindings options st (.keyboard e)).state.possibleMatches[j]?
      = some none ∧
    (handleEvent bindings options st (.keyboard e)).fired[j]? = some true ∧
    (∀ k, j < k →
      (handleEvent bindings options st (.keyboard e)).state.possibleMatches[k]?
          = st.possibleMatches[k]? ∧
      (handleEvent bindings options st (.keyboard e)).fired[k]?
          = (bindings[k]?).map fun _ => false) := by
  obtain ⟨hexc, hslotj, hfiredj, hafterp, hafterf⟩ :=
    runBindings_throw e bindings st.possibleMatches j seqj hj hfire hbefore
  rw [handleEvent_keyboard_exc bindings options st e hgate hexc]
  exact ⟨rfl, rfl, hslotj, hfiredj, fun k hk => ⟨hafterp k hk, hafterf k hk⟩⟩

/-- Witness for claim C8: three bindings "x", "y" (throwing) and "y"; the
`y` keydown fires the second, whose exception stops the loop before the
third binding and leaves the timer untouched. -/
theorem claim_C8_witness :
    (handleEvent bindingsThrow optionsNone ⟨[none, none, none], some 77⟩
        (.keyboard eventY)).exc = true ∧
    (handleEvent bindingsThrow optionsNone ⟨[none, none, none], some 77⟩
        (.keyboard eventY)).state.timer = some 77 ∧
    (handleEvent bindingsThrow optionsNone ⟨[none, none, none], some 77⟩
        (.keyboard eventY)).state.possibleMatches[1]? = some none ∧
    (handleEvent bindingsThrow optionsNone ⟨[none, none, none], some 77⟩
        (.keyboard eventY)).fired[1]? = some true ∧
    (handleEvent bindingsThrow optionsNone ⟨[none, none, none], some 77⟩
        (.keyboard eventY)).state.possibleMatches[2]? = some none ∧
    (handleEvent bindingsThrow optionsNone ⟨[none, none, none], some 77⟩
        (.keyboard eventY)).fired[2]? = some false := by
  have hbefore : ∀ k, k < 1 → ∀ b : Binding, bindingsThrow[k]? = some b →
      b.2 = true →
      (stepBinding eventY b.1
        ((⟨[none, none, none], some 77⟩ : HandlerState).possibleMatches.getD
          k none)).2 = false := by
    intro k hk b hb hbt
    have hk0 : k = 0 := by omega
    subst hk0
    simp only [bindingsThrow, List.getElem?_cons_zero, Option.some.injEq] at hb
    rw [← hb] at hbt
    exact absurd hbt (by decide)
  have H := claim_C8 bindingsThrow optionsNone ⟨[none, none, none], some 77⟩
    eventY 1 [([], "y")] (by decide) (by decide) (by decide) hbefore
  exact ⟨H.1, H.2.1, H.2.2.1, H.2.2.2.1, (H.2.2.2.2 2 (by omega)).1,
    (H.2.2.2.2 2 (by omega)).2⟩

/-- Helper: a table of absent entries reads as absent at every index. -/
lemma getD_replicate_none (n i : Nat) :
    (List.replicate n (none : ProgressEntry)).getD i none = none := by
  rw [List.getD_eq_getElem?_getD, List.getElem?_replicate]
  split <;> rfl

/-- Claim C4: on every qualifying event (no callback raising) the handler
replaces any pending abandonment timer with a fresh one for `timeout`
milliseconds, 1000 when the option is absent; the timer firing clears the
whole table unconditionally and spends the handle; and a qualifying event
arriving after the firing is matched for every binding from the full
sequence (a fresh start), whatever progress had been stored before. -/
theorem claim_C4 (bindings : List Binding) (options : KeyBindingHandlerOptions)
    (st : HandlerState) (e : KeyboardEvent)
    (hgate : (!(options.allowRepeat.getD false) && e.isRepeat) = false)
    (hlen : st.possibleMatches.length = bindings.length)
    (hthrow : ∀ b ∈ bindings, b.2 = false) :
    (handleEvent bindings options st (.keyboard e)).state.timer
      = some (options.timeout.getD DEFAULT_TIMEOUT) ∧
    (options.timeout = none →
      (handleEvent bindings options st (.keyboard e)).state.timer = some 1000) ∧
    (fireTimer st).possibleMatches = List.replicate st.possibleMatches.length none ∧
    (fireTimer st).timer = none ∧
    (∀ i : Nat,
      (handleEvent bindings options (fireTimer st) (.keyboard e)).state.possibleMatches[i]?
        = (bindings[i]?).map fun b => (stepBinding e b.1 none).1) := by
  obtain ⟨hexc, _, _, _⟩ := runBindings_spec e bindings st.possibleMatches hlen hthrow
  have hflen : (fireTimer st).possibleMatches.length = bindings.length := by
    simp [fireTimer, hlen]
  obtain ⟨hexc2, _, _, hidx2⟩ :=
    runBindings_spec e bindings (fireTimer st).possibleMatches hflen hthrow
  refine ⟨?_, ?_, rfl, rfl, ?_⟩
  · rw [handleEvent_keyboard_no_exc bindings options st e hgate hexc]
  · intro hnone
    rw [handleEvent_keyboard_no_exc bindings options st e hgate hexc, hnone]
    rfl
  · intro i
    rw [handleEvent_keyboard_no_exc bindings options (fireTimer st) e hgate hexc2]
    have h2 := (hidx2 i).1
    have hget : (fireTimer st).possibleMatches.getD i none = none := by
      simp only [fireTimer]
      exact getD_replicate_none st.possibleMatches.length i
    rw [hget] at h2
    exact h2

/-- Witness for claim C4: the "y e" binding, a state holding progress and a
pending 5 ms timer: the `y` keydown schedules a 1000 ms timer; firing the
timer clears the table; the `y` keydown after the firing stores the suffix
of the full sequence. -/
theorem claim_C4_witness :
    (handleEvent bindingsYE optionsNone ⟨[some [([], "e")]], some 5⟩
        (.keyboard eventY)).state.timer = some 1000 ∧
    (fireTimer ⟨[some [([], "e")]], some 5⟩).possibleMatches = [none] ∧
    (fireTimer ⟨[some [([], "e")]], some 5⟩).timer = none ∧
    (handleEvent bindingsYE optionsNone (fireTimer ⟨[some [([], "e")]], some 5⟩)
        (.keyboard eventY)).state.possibleMatches[0]? = some (some [([], "e")]) := by
  have H := claim_C4 bindingsYE optionsNone ⟨[some [([], "e")]], some 5⟩ eventY
    (by decide) (by decide) (by decide)
  exact ⟨H.2.1 rfl, H.2.2.1, H.2.2.2.1, H.2.2.2.2 0⟩

/-- Helper: a present table read with default implies the indexed entry. -/
lemma getElem?_of_getD_some (l : List ProgressEntry) (i : Nat)
    (x : List KeyBindingPress) (h : l.getD i none = some x) :
    l[i]? = some (some x) := by
  rw [List.getD_eq_getElem?_getD] at h
  cases hl : l[i]? with
  | none => rw [hl] at h; exact absurd h (by simp)
  | some y =>
    rw [hl] at h
    simp only [Option.getD_some] at h
    rw [h]

/-- Helper: in every reachable state (no callback raising) the table is
aligned with the bindings and every present entry is a non-empty proper
suffix of its owning binding's sequence. -/
lemma reachable_inv (bindings : List Binding) (options : KeyBindingHandlerOptions)
    (hthrow : ∀ b ∈ bindings, b.2 = false) :
    ∀ st, Reachable bindings options st →
      st.possibleMatches.length = bindings.length ∧
      ∀ (i : Nat) (entry : List KeyBindingPress),
        st.possibleMatches[i]? = some (some entry) →
        ∃ b : Binding, bindings[i]? = some b ∧
          entry ≠ [] ∧ entry <:+ b.1 ∧ entry.length < b.1.length := by
  intro st hreach
  induction hreach with
  | init =>
    refine ⟨by simp [initialState], ?_⟩
    intro i entry h
    simp only [initialState] at h
    rw [List.getElem?_replicate] at h
    split at h
    · exact absurd h (by simp)
    · exact absurd h (by simp)
  | fire st' hr ih =>
    refine ⟨by simp [fireTimer, ih.1], ?_⟩
    intro i entry h
    simp only [fireTimer] at h
    rw [List.getElem?_replicate] at h
    split at h
    · exact absurd h (by simp)
    · exact absurd h (by simp)
  | step st' ev hr ih =>
    obtain ⟨ihlen, ihinv⟩ := ih
    cases ev with
    | other => exact ⟨ihlen, ihinv⟩
    | keyboard e =>
      by_cases hgate : (!(options.allowRepeat.getD false) && e.isRepeat) = true
      · have hH : handleEvent bindings options st' (.keyboard e)
            = ⟨st', List.replicate bindings.length false, false⟩ := by
          simp only [handleEvent, hgate, if_true]
        rw [hH]
        exact ⟨ihlen, ihinv⟩
      · have hgate' : (!(options.allowRepeat.getD false) && e.isRepeat) = false :=
          Bool.eq_false_iff.mpr hgate
        obtain ⟨hexc, hplen, _, hidx⟩ :=
          runBindings_spec e bindings st'.possibleMatches ihlen hthrow
        rw [handleEvent_keyboard_no_exc bindings options st' e hgate' hexc]
        refine ⟨hplen, ?_⟩
        intro i entry h
        have hi := (hidx i).1
        rw [hi] at h
        cases hb : bindings[i]? with
        | none => rw [hb] at h; exact absurd h (by simp)
        | some b =>
          rw [hb] at h
          simp only [Option.map_some'] at h
          have hstep : (stepBinding e b.1 (st'.possibleMatches.getD i none)).1
              = some entry := by simpa using h
          refine ⟨b, rfl, ?_⟩
          cases hrem : (st'.possibleMatches.getD i none).getD b.1 with
          | nil =>
            rw [stepBinding_nil e b.1 _ hrem] at hstep
            exact absurd hstep (by simp)
          | cons cur rest =>
            rw [stepBinding_cases e b.1 _ cur rest hrem] at hstep
            by_cases hm : matchPress e cur = true
            · rw [if_pos hm] at hstep
              by_cases hre : rest.isEmpty = true
              · rw [if_pos hre] at hstep
                exact absurd hstep (by simp)
              · rw [if_neg hre] at hstep
                have hentry : rest = entry := by simpa using hstep
                subst hentry
                have hrne : rest ≠ [] := fun hc => hre (by rw [hc]; rfl)
                cases hprev : st'.possibleMatches.getD i none with
                | none =>
                  rw [hprev] at hrem
                  simp only [Option.getD_none] at hrem
                  refine ⟨hrne, ?_, ?_⟩
                  · rw [hrem]
                    exact List.suffix_cons cur rest
                  · rw [hrem]
                    simp
                | some entryOld =>
                  rw [hprev] at hrem
                  simp only [Option.getD_some] at hrem
                  obtain ⟨b', hb', hone, hsuf, hlt⟩ :=
                    ihinv i entryOld (getElem?_of_getD_some _ i entryOld hprev)
                  rw [hb] at hb'
                  have hbb : b' = b := by simpa using hb'.symm
                  subst hbb
                  refine ⟨hrne, ?_, ?_⟩
                  · have hrs : rest <:+ entryOld := by
                      rw [hrem]
                      exact List.suffix_cons cur rest
                    exact hrs.trans hsuf
                  · have hrl : rest.length < entryOld.length := by
                      rw [hrem]
                      simp
                    omega
            · rw [if_neg hm] at hstep
              by_cases hg : getModifierState e e.key = true
              · rw [if_pos hg] at hstep
                obtain ⟨b', hb', hprops⟩ :=
                  ihinv i entry (getElem?_of_getD_some _ i entry hstep)
                rw [hb] at hb'
                have hbb : b' = b := by simpa using hb'.symm
                subst hbb
                exact hprops
              · rw [if_neg hg] at hstep
                exact absurd hstep (by simp)

/-- Claim C6: in every state reachable by handled events and timer firings
(callbacks not raising), every entry present in the table is a non-empty
proper suffix of its owning binding's parsed sequence; and completion
clears the entry in the same step that invokes the callback, so the table
never holds an entry for a fully-completed sequence. -/
theorem claim_C6 (bindings : List Binding) (options : KeyBindingHandlerOptions)
    (hthrow : ∀ b ∈ bindings, b.2 = false) :
    (∀ st, Reachable bindings options st →
      ∀ (i : Nat) (entry : List KeyBindingPress),
        st.possibleMatches[i]? = some (some entry) →
        ∃ b : Binding, bindings[i]? = some b ∧
          entry ≠ [] ∧ entry <:+ b.1 ∧ entry.length < b.1.length) ∧
    (∀ st, Reachable bindings options st → ∀ (ev : Event) (i : Nat),
      (handleEvent bindings options st ev).fired[i]? = some true →
      (handleEvent bindings options st ev).state.possibleMatches[i]?
        = some none) := by
  constructor
  · intro st hr
    exact (reachable_inv bindings options hthrow st hr).2
  · intro st hr ev i hfired
    have hlen := (reachable_inv bindings options hthrow st hr).1
    cases ev with
    | other =>
      rw [show (handleEvent bindings options st Event.other).fired
          = List.replicate bindings.length false from rfl,
        List.getElem?_replicate] at hfired
      split at hfired
      · exact absurd hfired (by simp)
      · exact absurd hfired (by simp)
    | keyboard e =>
      by_cases hgate : (!(options.allowRepeat.getD false) && e.isRepeat) = true
      · have hH : handleEvent bindings options st (.keyboard e)
            = ⟨st, List.replicate bindings.length false, false⟩ := by
          simp only [handleEvent, hgate, if_true]
        rw [hH] at hfired
        rw [List.getElem?_replicate] at hfired
        split at hfired
        · exact absurd hfired (by simp)
        · exact absurd hfired (by simp)
      · have hgate' : (!(options.allowRepeat.getD false) && e.isRepeat) = false :=
          Bool.eq_false_iff.mpr hgate
        obtain ⟨hexc, _, _, hidx⟩ :=
          runBindings_spec e bindings st.possibleMatches hlen hthrow
        rw [handleEvent_keyboard_no_exc bindings options st e hgate' hexc] at hfired ⊢
        have hf := (hidx i).2
        have hp := (hidx i).1
        rw [hf] at hfired
        cases hb : bindings[i]? with
        | none => rw [hb] at hfired; exact absurd hfired (by simp)
        | some b =>
          rw [hb] at hfired
          simp only [Option.map_some'] at hfired
          have hstepf : (stepBinding e b.1 (st.possibleMatches.getD i none)).2
              = true := by simpa using hfired
          have hcleared := stepBinding_fired e b.1 _ hstepf
          rw [hp, hb]
          simp only [Option.map_some']
          rw [hcleared]

/-- Witness for claim C6: after the `y` keydown the "y e" binding's stored
entry is the proper suffix containing only the `e` press; the following `e`
keydown fires and the same step clears the entry. -/
theorem claim_C6_witness :
    (∃ b : Binding, bindingsYE[0]? = some b ∧
      ([([], "e")] : List KeyBindingPress) ≠ [] ∧
      ([([], "e")] : List KeyBindingPress) <:+ b.1 ∧
      ([([], "e")] : List KeyBindingPress).length < b.1.length) ∧
    (handleEvent bindingsYE optionsNone
        (handleEvent bindingsYE optionsNone (initialState bindingsYE)
          (.keyboard eventY)).state
        (.keyboard eventE)).state.possibleMatches[0]? = some none := by
  constructor
  · exact (claim_C6 bindingsYE optionsNone (by decide)).1 _
      (Reachable.step _ (.keyboard eventY) Reachable.init) 0 [([], "e")]
      (by decide)
  · exact (claim_C6 bindingsYE optionsNone (by decide)).2 _
      (Reachable.step _ (.keyboard eventY) Reachable.init) (.keyboard eventE) 0
      (by decide)

/-- Claim C5 counterexample: the unsubscribe function returned by
`tinykeys` only removes the event listener; it does not cancel a pending
abandonment timer, so tearing down a subscription whose handler still holds
a scheduled timer leaves that timer pending, contradicting the claim that
teardown cancels it. -/
theorem claim_C5_counterexample :
    (tinykeysUnsub ⟨true, ⟨[], some 5⟩⟩).handler.timer = some 5 ∧
    some 5 ≠ (none : Option Nat) := ⟨rfl, by decide⟩

/-- Claim C5 amended: the unsubscribe function removes the listener and is
idempotent, and after teardown no event is dispatched to the handler, so no
table mutation and no callback invocation occurs — but the handler closure
state, a pending abandonment timer included, is left untouched rather than
cancelled. -/
theorem claim_C5_amended (bindings : List Binding)
    (options : KeyBindingHandlerOptions) (s : SubscriptionState) :
    (tinykeysUnsub s).attached = false ∧
    tinykeysUnsub (tinykeysUnsub s) = tinykeysUnsub s ∧
    (tinykeysUnsub s).handler = s.handler ∧
    (∀ ev : Event, dispatch bindings options (tinykeysUnsub s) ev
      = (tinykeysUnsub s, [], false)) := by
  refine ⟨rfl, rfl, rfl, ?_⟩
  intro ev
  simp [dispatch, tinykeysUnsub]

end Tinykeys
